import Mathlib

set_option maxRecDepth 100000

/-!
Shallow embedding of the gamboye emulator core: the CPU register file
(`src/cpu/registers.rs`) and the pixel-decode pipeline (`src/ppu.rs`).
Machine integers are embedded as `Nat`; every narrowing cast of the source
(`as u8`) appears as an explicit `% 256`, and `u8`/`u16` shifts, masks and
wrapping additions are written with the corresponding `Nat` bitwise
operators and explicit `% 2^w` truncations.
-/

namespace Gamboye

/-- Flag register state (`struct Flags` in `src/cpu/registers.rs`):
four independent booleans. -/
structure Flags where
  zero : Bool
  subtract : Bool
  half_carry : Bool
  carry : Bool
deriving DecidableEq, Repr

namespace Flags

/-- Embeds `Flags::new`: the fixed post-boot flag state. -/
def new : Flags :=
  { zero := true
    subtract := false
    half_carry := true
    carry := true }

/-- Embeds `Flags::as_byte`: combines the flags into a byte of shape
`0bZNHC_0000` by or-ing in one bit per set flag. -/
def as_byte (f : Flags) : Nat :=
  let bits := 0
  let bits := if f.zero then bits ||| (1 <<< 7) else bits
  let bits := if f.subtract then bits ||| (1 <<< 6) else bits
  let bits := if f.half_carry then bits ||| (1 <<< 5) else bits
  let bits := if f.carry then bits ||| (1 <<< 4) else bits
  bits

/-- Embeds `Flags::set_bits`: sets each flag from the corresponding bit of
`value`; the previous flag state is entirely overwritten. -/
def set_bits (_f : Flags) (value : Nat) : Flags :=
  { zero := value &&& 0b10000000 > 0
    subtract := value &&& 0b01000000 > 0
    half_carry := value &&& 0b00100000 > 0
    carry := value &&& 0b00010000 > 0 }

end Flags

/-- Register file (`struct Registers` in `src/cpu/registers.rs`). Every
8-bit field is a `Nat` kept below 256 by the operations, `sp`/`pc` are
16-bit, `ime` is the interrupt-master-enable boolean. -/
structure Registers where
  a : Nat
  f : Flags
  b : Nat
  c : Nat
  d : Nat
  e : Nat
  h : Nat
  l : Nat
  sp : Nat
  pc : Nat
  ime : Bool
deriving DecidableEq, Repr

namespace Registers

/-- Embeds `Registers::new`: the fixed post-boot snapshot (init values
from mooneye's boot_regs-cgb test rom). -/
def new : Registers :=
  { a := 0x01
    f := Flags.new
    b := 0x00
    c := 0x13
    d := 0x00
    e := 0xD8
    h := 0x01
    l := 0x4D
    sp := 0xFFFE
    pc := 0x0100
    ime := true }

/-- Embeds `Registers::get_bc`: `((self.b as u16) << 8) | self.c as u16`. -/
def get_bc (r : Registers) : Nat := (r.b <<< 8) ||| r.c

/-- Embeds `Registers::set_bc`; the `as u8` casts appear as `% 256`. -/
def set_bc (r : Registers) (value : Nat) : Registers :=
  { r with b := (value >>> 8) % 256, c := (value &&& 0xFF) % 256 }

/-- Embeds `Registers::get_de`. -/
def get_de (r : Registers) : Nat := (r.d <<< 8) ||| r.e

/-- Embeds `Registers::set_de`. -/
def set_de (r : Registers) (value : Nat) : Registers :=
  { r with d := (value >>> 8) % 256, e := (value &&& 0xFF) % 256 }

/-- Embeds `Registers::get_hl`. -/
def get_hl (r : Registers) : Nat := (r.h <<< 8) ||| r.l

/-- Embeds `Registers::set_hl`. -/
def set_hl (r : Registers) (value : Nat) : Registers :=
  { r with h := (value >>> 8) % 256, l := (value &&& 0xFF) % 256 }

/-- Embeds `Registers::get_af`: the low byte is the packed flags byte. -/
def get_af (r : Registers) : Nat := (r.a <<< 8) ||| r.f.as_byte

/-- Embeds `Registers::set_af`: the low byte is routed through
`Flags::set_bits`. -/
def set_af (r : Registers) (value : Nat) : Registers :=
  { r with a := (value >>> 8) % 256, f := r.f.set_bits ((value &&& 0xFF) % 256) }

end Registers

/-- Tile addressing mode (`enum AddressType` in `src/ppu.rs`). -/
inductive AddressType
  | Unsigned
  | Signed
deriving DecidableEq, Repr

/-- Pixel pipeline state (`struct Ppu` in `src/ppu.rs`): an optional
presentation window and the `lcdc`/`stat` control bytes. The decode
pipeline only checks the window's presence, so the embedding keeps an
`Option Unit` in place of the `Option<Window>`. -/
structure Ppu where
  window : Option Unit
  lcdc : Nat
  stat : Nat
deriving DecidableEq, Repr

/-- Modelled from the spec: the memory-read collaborator `Mmu` is not among
the source files under `src/`; §6 of the spec describes it as a fully
mapped 16-bit address space read through `load_block`. Memory is modelled
as a total byte function over addresses. -/
abbrev Mmu : Type := Nat → Nat

/-- Modelled from the spec: `load_block(start, end) -> sequence of u8`
covering the range as used by callers, where the two-byte reads of
`Ppu::render` pass `(addr, addr + 1)` and receive the bytes at `addr` and
`addr + 1`. -/
def Mmu.load_block (mem : Mmu) (start stop : Nat) : List Nat :=
  (List.range (stop + 1 - start)).map (fun k => mem (start + k))

namespace Ppu

/-- Embeds `Ppu::new_headless`: no window, `lcdc = 0`, `stat = 0`. -/
def new_headless : Ppu := { window := none, lcdc := 0, stat := 0 }

/-- Embeds one iteration of the loop in `Ppu::interleave`: combines bit
`7 - i` of each byte into a palette index. The `u8` left shift
`(bytes[0] & (0x80 >> i)) << 1` truncates modulo 256, written here as an
explicit `% 256`. -/
def interleaveBit (bytes : Nat × Nat) (i : Nat) : Nat :=
  let high := ((bytes.1 &&& (0x80 >>> i)) <<< 1) % 256
  let low := bytes.2 &&& (0x80 >>> i)
  (high ||| low) >>> (7 - i)

/-- Embeds `Ppu::interleave`: the eight palette indices produced from a
two-byte row, most significant pixel first. -/
def interleave (bytes : Nat × Nat) : List Nat :=
  (List.range 8).map (interleaveBit bytes)

/-- Embeds the addressing-mode selection of `Ppu::render`:
`self.lcdc & 1 << 4 == 1 << 4` selects `Unsigned`, otherwise `Signed`. -/
def address_type (lcdc : Nat) : AddressType :=
  if lcdc &&& (1 <<< 4) = 1 <<< 4 then AddressType.Unsigned else AddressType.Signed

/-- Embeds the per-cell tile address of `Ppu::render`: `0x8000 + offset`
in unsigned mode (the offsets produced by `render` stay below 1024, so the
`u16` addition cannot overflow there), and the wrapping
`0x9000_u16.wrapping_add(offset as i16 as u16)` in signed mode; the
`i16`/`u16` casts are bit-identities and the wrap is an explicit
`% 65536`. -/
def tile_addr (lcdc : Nat) (offset : Nat) : Nat :=
  match address_type lcdc with
  | AddressType.Unsigned => 0x8000 + offset
  | AddressType.Signed => (0x9000 + offset) % 65536

/-- Embeds the fixed DMG palette of `Ppu::render` (lightening shades of
green). -/
def palette : List Nat := [0x00002200, 0x000D2F0D, 0x00D0F2D0, 0x00DDFFDD]

/-- Observable effect trace of one `Ppu::render` call: the argument pair
of every `load_block` call in order, and every framebuffer store
`(index, value)` in order. -/
structure RenderTrace where
  reads : List (Nat × Nat)
  writes : List (Nat × Nat)
deriving DecidableEq, Repr

/-- Embeds one iteration of the `for i in 0..8` loop of `Ppu::render`: one
`load_block` call at `(tile_addr, tile_addr + 1)`, an `interleave` of the
two returned bytes, and eight framebuffer stores
`fb[offset + i * 8 + j] = palette[pixels[j]]`. -/
def renderCellRow (lcdc : Nat) (mem : Mmu) (offset i : Nat) (acc : RenderTrace) : RenderTrace :=
  let ta := tile_addr lcdc offset
  let pair := mem.load_block ta (ta + 1)
  let pixels := interleave (pair.getD 0 0, pair.getD 1 0)
  { reads := acc.reads ++ [(ta, ta + 1)]
    writes := acc.writes ++ pixels.enum.map (fun pr => (offset + i * 8 + pr.1, palette.getD pr.2 0)) }

/-- Embeds `Ppu::render`: with no window it does nothing; with a window it
walks the 32×32 background map in the source's loop order (outer `x`,
inner `y`, flat `offset = x * 32 + y`, innermost `i` then `j`) and
produces the trace of memory reads and framebuffer writes. The `Ppu` state
is returned unchanged, as the source mutates none of `window`, `lcdc` or
`stat`. -/
def render (p : Ppu) (mem : Mmu) : Ppu × Option RenderTrace :=
  match p.window with
  | none => (p, none)
  | some _ =>
    let tr := (List.range 32).foldl (fun acc x =>
      (List.range 32).foldl (fun acc y =>
        (List.range 8).foldl (fun acc i => renderCellRow p.lcdc mem (x * 32 + y) i acc) acc)
        acc) { reads := [], writes := [] }
    (p, some tr)

/-- Argument pairs of the `load_block` calls a `render` call performs
(empty when `render` does not render). -/
def renderReads (p : Ppu) (mem : Mmu) : List (Nat × Nat) :=
  match (render p mem).2 with
  | none => []
  | some tr => tr.reads

/-- Framebuffer produced by a render trace: the stores applied in order to
the pre-zeroed 256×256 flat buffer. -/
def framebuffer (tr : RenderTrace) : List Nat :=
  tr.writes.foldl (fun fb w => fb.set w.1 w.2) (List.replicate (256 * 256) 0)

end Ppu

/-! Bridging lemmas between the bitwise operators of the embedding and
plain arithmetic. -/

/-- Or-ing a value shifted 8 bits left with a byte is plain addition. -/
theorem lor_shiftLeft_eq_add (a b : Nat) (hb : b < 2 ^ 8) :
    (a <<< 8) ||| b = a * 2 ^ 8 + b := by
  apply Nat.eq_of_testBit_eq
  intro j
  simp only [Nat.testBit_lor, Nat.testBit_shiftLeft]
  rw [show a * 2 ^ 8 + b = 2 ^ 8 * a + b by ring, Nat.testBit_mul_pow_two_add a hb j]
  by_cases hj : j < 8
  · simp [hj, Nat.not_le.mpr hj]
  · have hbj : b.testBit j = false :=
      Nat.testBit_lt_two_pow
        (lt_of_lt_of_le hb (Nat.pow_le_pow_right (by norm_num) (Nat.le_of_not_lt hj)))
    simp [hj, Nat.le_of_not_lt hj, hbj]

/-- Masking with `0xFF` is reduction modulo 256. -/
theorem and_mask_ff (n : Nat) : n &&& 0xFF = n % 256 := by
  have := Nat.and_pow_two_sub_one_eq_mod n 8
  norm_num at this
  exact this

/-- Masking with `0x0F` is reduction modulo 16. -/
theorem and_mask_0f (n : Nat) : n &&& 0x0F = n % 16 := by
  have := Nat.and_pow_two_sub_one_eq_mod n 4
  norm_num at this
  exact this

/-- A 16-bit shift right by 8 is division by 256. -/
theorem shiftRight_eq_div (n : Nat) : n >>> 8 = n / 256 := by
  have := Nat.shiftRight_eq_div_pow n 8
  norm_num at this
  exact this

/-- Masking a 16-bit value with `0xFFF0` clears the low nibble and keeps
the rest: it equals `n / 16 * 16`. -/
theorem and_mask_fff0 (n : Nat) (hn : n < 2 ^ 16) : n &&& 0xFFF0 = n / 16 * 16 := by
  apply Nat.eq_of_testBit_eq
  intro j
  rw [Nat.testBit_and]
  have h16 : n / 16 * 16 = 2 ^ 4 * (n / 16) + 0 := by ring
  rw [h16, Nat.testBit_mul_pow_two_add (n / 16) (by norm_num) j]
  have hdiv : n / 16 = n >>> 4 := by
    have := Nat.shiftRight_eq_div_pow n 4
    norm_num at this
    omega
  rcases Nat.lt_or_ge j 4 with h4 | h4
  · have hmask : (0xFFF0 : Nat).testBit j = false := by interval_cases j <;> decide
    simp [hmask, h4, Nat.zero_testBit]
  · rcases Nat.lt_or_ge j 16 with h16' | h16'
    · have hmask : (0xFFF0 : Nat).testBit j = true := by interval_cases j <;> decide
      have harg : 4 + (j - 4) = j := by omega
      simp [Nat.not_lt.mpr h4, hmask, hdiv, Nat.testBit_shiftRight, harg]
    · have hmask : (0xFFF0 : Nat).testBit j = false :=
        Nat.testBit_lt_two_pow
          (lt_of_lt_of_le (by norm_num)
            (Nat.pow_le_pow_right (by norm_num) h16'))
      have hnj : n.testBit j = false :=
        Nat.testBit_lt_two_pow
          (lt_of_lt_of_le hn (Nat.pow_le_pow_right (by norm_num) h16'))
      have hnj' : n.testBit (4 + (j - 4)) = false := by
        have : 4 + (j - 4) = j := by omega
        rw [this, hnj]
      simp [Nat.not_lt.mpr h4, hmask, hnj, hdiv, Nat.testBit_shiftRight, hnj']

/-- Result of `Flags::set_bits` ignores the previous flag state entirely. -/
theorem set_bits_irrel (f g : Flags) (v : Nat) : f.set_bits v = g.set_bits v := rfl

/-- Packing the flags set from a byte recovers exactly the high nibble of
that byte. -/
theorem as_byte_set_bits :
    ∀ v < 256, (Flags.set_bits Flags.new v).as_byte = v / 16 * 16 := by decide

/-- Claim C2: writing any byte `v` into the flags and reading it back
preserves exactly the high nibble (`as_byte() & 0xF0 == v & 0xF0`,
`as_byte() & 0x0F == 0`), and `set_bits (as_byte f) = f` for every flag
state `f`. -/
theorem C2_flags_round_trip (f : Flags) (v : Nat) (hv : v < 256) :
    (f.set_bits v).as_byte &&& 0xF0 = v &&& 0xF0 ∧
      (f.set_bits v).as_byte &&& 0x0F = 0 ∧
      f.set_bits f.as_byte = f := by
  rw [set_bits_irrel f Flags.new v]
  refine ⟨?_, ?_, ?_⟩
  · revert hv
    revert v
    decide
  · revert hv
    revert v
    decide
  · cases f with
    | mk z s hc c => revert z s hc c; decide

/-- Witness for C2 at `v = 0xAB` and the post-boot flag state. -/
theorem C2_flags_round_trip_witness :
    (0xAB : Nat) < 256 ∧
      ((Flags.new.set_bits 0xAB).as_byte &&& 0xF0 = 0xAB &&& 0xF0 ∧
        (Flags.new.set_bits 0xAB).as_byte &&& 0x0F = 0 ∧
        Flags.new.set_bits Flags.new.as_byte = Flags.new) :=
  ⟨by decide, C2_flags_round_trip Flags.new 0xAB (by decide)⟩

/-- Claim C4: `Registers::new()` returns exactly the documented post-boot
snapshot, whose packed flags byte is `0b1011_0000` (zero, half-carry and
carry set, subtract clear). -/
theorem C4_registers_new :
    Registers.new =
      { a := 0x01
        f := { zero := true, subtract := false, half_carry := true, carry := true }
        b := 0x00
        c := 0x13
        d := 0x00
        e := 0xD8
        h := 0x01
        l := 0x4D
        sp := 0xFFFE
        pc := 0x0100
        ime := true } ∧
      Registers.new.f.as_byte = 0b10110000 := by
  constructor
  · rfl
  · decide

/-- Claim C3: for every 16-bit value, `set_bc` then `get_bc` is the
identity (likewise DE and HL); for AF the round trip preserves exactly the
high twelve bits and zeroes the low nibble. -/
theorem C3_pair_round_trip (r : Registers) (v : Nat) (hv : v < 65536) :
    (r.set_bc v).get_bc = v ∧
      (r.set_de v).get_de = v ∧
      (r.set_hl v).get_hl = v ∧
      (r.set_af v).get_af &&& 0xFFF0 = v &&& 0xFFF0 ∧
      (r.set_af v).get_af &&& 0x000F = 0 := by
  have hsplit : (((v >>> 8) % 256) <<< 8) ||| ((v &&& 0xFF) % 256) = v := by
    rw [shiftRight_eq_div, and_mask_ff]
    have h1 : v / 256 % 256 = v / 256 := Nat.mod_eq_of_lt (by omega)
    have h2 : v % 256 % 256 = v % 256 := by omega
    rw [h1, h2, lor_shiftLeft_eq_add _ _ (by norm_num; omega)]
    omega
  have haf : (r.set_af v).get_af = v / 256 * 256 + v % 256 / 16 * 16 := by
    show (((v >>> 8) % 256) <<< 8) ||| (Flags.as_byte (Flags.set_bits r.f ((v &&& 0xFF) % 256))) = _
    rw [set_bits_irrel r.f Flags.new, and_mask_ff]
    have h2 : v % 256 % 256 = v % 256 := by omega
    rw [h2, as_byte_set_bits (v % 256) (by omega)]
    rw [shiftRight_eq_div]
    have h1 : v / 256 % 256 = v / 256 := Nat.mod_eq_of_lt (by omega)
    rw [h1, lor_shiftLeft_eq_add _ _ (by norm_num; omega)]
    norm_num
  refine ⟨hsplit, hsplit, hsplit, ?_, ?_⟩
  · rw [haf, and_mask_fff0 _ (by norm_num; omega), and_mask_fff0 _ (by norm_num; omega)]
    omega
  · rw [haf, and_mask_0f]
    omega

/-- Witness for C3 at the post-boot register state and `v = 0xBEEF`. -/
theorem C3_pair_round_trip_witness :
    (0xBEEF : Nat) < 65536 ∧
      ((Registers.new.set_bc 0xBEEF).get_bc = 0xBEEF ∧
        (Registers.new.set_de 0xBEEF).get_de = 0xBEEF ∧
        (Registers.new.set_hl 0xBEEF).get_hl = 0xBEEF ∧
        (Registers.new.set_af 0xBEEF).get_af &&& 0xFFF0 = 0xBEEF &&& 0xFFF0 ∧
        (Registers.new.set_af 0xBEEF).get_af &&& 0x000F = 0) :=
  ⟨by decide, C3_pair_round_trip Registers.new 0xBEEF (by decide)⟩

/-- Claim C9: each pair setter touches only its own two underlying fields
(for AF, the accumulator and the flags struct); every other field of the
register file is left unchanged, and each pair getter reads only its own
two underlying fields. -/
theorem C9_pair_accessor_frame (r : Registers) (v : Nat) :
    ((r.set_bc v).a = r.a ∧ (r.set_bc v).f = r.f ∧ (r.set_bc v).d = r.d ∧
      (r.set_bc v).e = r.e ∧ (r.set_bc v).h = r.h ∧ (r.set_bc v).l = r.l ∧
      (r.set_bc v).sp = r.sp ∧ (r.set_bc v).pc = r.pc ∧ (r.set_bc v).ime = r.ime) ∧
    ((r.set_de v).a = r.a ∧ (r.set_de v).f = r.f ∧ (r.set_de v).b = r.b ∧
      (r.set_de v).c = r.c ∧ (r.set_de v).h = r.h ∧ (r.set_de v).l = r.l ∧
      (r.set_de v).sp = r.sp ∧ (r.set_de v).pc = r.pc ∧ (r.set_de v).ime = r.ime) ∧
    ((r.set_hl v).a = r.a ∧ (r.set_hl v).f = r.f ∧ (r.set_hl v).b = r.b ∧
      (r.set_hl v).c = r.c ∧ (r.set_hl v).d = r.d ∧ (r.set_hl v).e = r.e ∧
      (r.set_hl v).sp = r.sp ∧ (r.set_hl v).pc = r.pc ∧ (r.set_hl v).ime = r.ime) ∧
    ((r.set_af v).b = r.b ∧ (r.set_af v).c = r.c ∧ (r.set_af v).d = r.d ∧
      (r.set_af v).e = r.e ∧ (r.set_af v).h = r.h ∧ (r.set_af v).l = r.l ∧
      (r.set_af v).sp = r.sp ∧ (r.set_af v).pc = r.pc ∧ (r.set_af v).ime = r.ime) ∧
    (∀ r' : Registers, r.b = r'.b → r.c = r'.c → r.get_bc = r'.get_bc) ∧
    (∀ r' : Registers, r.d = r'.d → r.e = r'.e → r.get_de = r'.get_de) ∧
    (∀ r' : Registers, r.h = r'.h → r.l = r'.l → r.get_hl = r'.get_hl) ∧
    (∀ r' : Registers, r.a = r'.a → r.f = r'.f → r.get_af = r'.get_af) := by
  refine ⟨⟨rfl, rfl, rfl, rfl, rfl, rfl, rfl, rfl, rfl⟩,
    ⟨rfl, rfl, rfl, rfl, rfl, rfl, rfl, rfl, rfl⟩,
    ⟨rfl, rfl, rfl, rfl, rfl, rfl, rfl, rfl, rfl⟩,
    ⟨rfl, rfl, rfl, rfl, rfl, rfl, rfl, rfl, rfl⟩, ?_, ?_, ?_, ?_⟩
  · intro r' hb hc
    simp [Registers.get_bc, hb, hc]
  · intro r' hd he
    simp [Registers.get_de, hd, he]
  · intro r' hh hl
    simp [Registers.get_hl, hh, hl]
  · intro r' ha hf
    simp [Registers.get_af, ha, hf]

/-- Shifting two values left by the same amount, or-ing, and shifting back
recovers the or of the originals. -/
theorem lor_shift_cancel (x y k : Nat) : ((x <<< k) ||| (y <<< k)) >>> k = x ||| y := by
  apply Nat.eq_of_testBit_eq
  intro j
  rw [Nat.testBit_shiftRight, Nat.testBit_lor, Nat.testBit_shiftLeft, Nat.testBit_shiftLeft,
    Nat.testBit_lor]
  simp [Nat.le_add_right, Nat.add_sub_cancel_left]

/-- Taking the low bit after a right shift extracts bit `k`. -/
theorem shiftRight_and_one (n k : Nat) : (n >>> k) &&& 1 = n / 2 ^ k % 2 := by
  rw [Nat.shiftRight_eq_div_pow, Nat.and_one_is_mod]

/-- Core of the interleave computation for bit positions `k ≤ 6`: the `u8`
truncation does not fire, so the result combines the two extracted bits as
`2 * hi_bit + lo_bit`. -/
theorem interleave_core (x y k : Nat) (hk : k ≤ 6) :
    ((((x &&& 2 ^ k) <<< 1) % 256) ||| (y &&& 2 ^ k)) >>> k
      = 2 * (x / 2 ^ k % 2) + (y / 2 ^ k % 2) := by
  have hxv : x / 2 ^ k % 2 = (x.testBit k).toNat := (Nat.toNat_testBit x k).symm
  have hyv : y / 2 ^ k % 2 = (y.testBit k).toNat := (Nat.toNat_testBit y k).symm
  have hp : (2 : Nat) ^ (k + 1) < 256 :=
    lt_of_le_of_lt (Nat.pow_le_pow_right (by norm_num) (show k + 1 ≤ 7 by omega)) (by norm_num)
  have e1 : ((2 : Nat) ^ k <<< 1) % 256 = 2 <<< k := by
    rw [Nat.shiftLeft_eq, Nat.shiftLeft_eq,
      Nat.mod_eq_of_lt (by rw [pow_succ] at hp; norm_num; omega)]
    ring
  have e2 : (2 : Nat) ^ k = 1 <<< k := by rw [Nat.shiftLeft_eq]; ring
  have shift_cancel_one : ∀ m : Nat, (m <<< k) >>> k = m := by
    intro m
    rw [Nat.shiftLeft_eq, Nat.shiftRight_eq_div_pow]
    exact Nat.mul_div_cancel _ (Nat.two_pow_pos k)
  rw [hxv, hyv, Nat.and_two_pow, Nat.and_two_pow]
  cases hx : x.testBit k <;> cases hy : y.testBit k <;>
    simp only [Bool.toNat_true, Bool.toNat_false, one_mul, zero_mul, mul_one, mul_zero]
  · simp
  · rw [Nat.zero_shiftLeft, Nat.zero_mod, Nat.zero_or, e2, shift_cancel_one]
  · rw [e1, Nat.or_zero, shift_cancel_one]
  · rw [e1, e2, lor_shift_cancel]
    decide

/-- Value of the per-iteration mask `0x80 >> i`. -/
theorem mask_eq_pow (i : Nat) (hi : i < 8) : (0x80 : Nat) >>> i = 2 ^ (7 - i) := by
  interval_cases i <;> decide

/-- For positions `1 ≤ i < 8`, `interleave` combines bit `7 - i` of each
byte as `2 * hi_bit + lo_bit`. -/
theorem interleaveBit_eq (bytes : Nat × Nat) (i : Nat) (h1 : 1 ≤ i) (h8 : i < 8) :
    Ppu.interleaveBit bytes i
      = 2 * ((bytes.1 >>> (7 - i)) &&& 1) + ((bytes.2 >>> (7 - i)) &&& 1) := by
  simp only [Ppu.interleaveBit]
  rw [mask_eq_pow i h8, shiftRight_and_one, shiftRight_and_one]
  exact interleave_core bytes.1 bytes.2 (7 - i) (by omega)

/-- At position 0 the `u8` truncation of `(bytes[0] & 0x80) << 1` discards
the high-plane bit, so only the low-plane bit survives. -/
theorem interleaveBit_zero (bytes : Nat × Nat) :
    Ppu.interleaveBit bytes 0 = (bytes.2 >>> 7) &&& 1 := by
  simp only [Ppu.interleaveBit, Nat.sub_zero]
  rw [mask_eq_pow 0 (by omega), shiftRight_and_one, Nat.sub_zero]
  have hx : ((bytes.1 &&& 2 ^ 7) <<< 1) % 256 = 0 := by
    rw [Nat.and_two_pow, Nat.shiftLeft_eq]
    cases hb : bytes.1.testBit 7 <;> simp
  rw [hx, Nat.zero_or, Nat.and_two_pow, Nat.shiftRight_eq_div_pow,
    Nat.mul_div_cancel _ (by norm_num : (0 : Nat) < 2 ^ 7), Nat.toNat_testBit]

/-- Every interleave output entry is a two-bit palette index. -/
theorem interleaveBit_le (bytes : Nat × Nat) (i : Nat) (hi : i < 8) :
    Ppu.interleaveBit bytes i ≤ 3 := by
  simp only [Ppu.interleaveBit]
  rw [mask_eq_pow i hi]
  have hpos : (0 : Nat) < 2 ^ (7 - i) := Nat.two_pow_pos _
  have hx : ((bytes.1 &&& 2 ^ (7 - i)) <<< 1) % 256 < 2 ^ (7 - i + 2) := by
    calc ((bytes.1 &&& 2 ^ (7 - i)) <<< 1) % 256
        ≤ (bytes.1 &&& 2 ^ (7 - i)) <<< 1 := Nat.mod_le _ _
      _ = (bytes.1 &&& 2 ^ (7 - i)) * 2 := by rw [Nat.shiftLeft_eq]
      _ ≤ 2 ^ (7 - i) * 2 := Nat.mul_le_mul_right _ Nat.and_le_right
      _ < 2 ^ (7 - i + 2) := by rw [pow_succ, pow_succ]; omega
  have hy : bytes.2 &&& 2 ^ (7 - i) < 2 ^ (7 - i + 2) :=
    lt_of_le_of_lt Nat.and_le_right (by rw [pow_succ, pow_succ]; omega)
  have hlor :
      (((bytes.1 &&& 2 ^ (7 - i)) <<< 1) % 256 ||| (bytes.2 &&& 2 ^ (7 - i)))
        < 2 ^ (7 - i + 2) :=
    Nat.bitwise_lt_two_pow hx hy
  rw [Nat.shiftRight_eq_div_pow]
  have hdiv : (((bytes.1 &&& 2 ^ (7 - i)) <<< 1) % 256 ||| (bytes.2 &&& 2 ^ (7 - i))) / 2 ^ (7 - i) < 4 :=
    Nat.div_lt_of_lt_mul (by rw [pow_add] at hlor; norm_num at hlor; omega)
  omega

/-- Lookup into the eight-entry interleave output is the per-bit decode. -/
theorem interleave_getD (bytes : Nat × Nat) :
    ∀ i < 8, (Ppu.interleave bytes).getD i 0 = Ppu.interleaveBit bytes i := by
  intro i hi
  interval_cases i <;> rfl

/-- Claim C1 counterexample: the source's `interleave` does not satisfy
the specified formula at position 0 (the `u8` shift `(bytes[0] & 0x80) << 1`
overflows and drops the high-plane bit), and the spec's literal expected
array `[3,3,3,3,2,0,2,0]` is not the output on `[0b11110000, 0b10101010]`. -/
theorem C1_interleave_counterexample :
    Ppu.interleave (0b11110000, 0b10101010) ≠ [3, 3, 3, 3, 2, 0, 2, 0] ∧
      (Ppu.interleave (0b11110000, 0b10101010)).getD 0 0
        ≠ 2 * (((0b11110000 : Nat) >>> (7 - 0)) &&& 1)
            + (((0b10101010 : Nat) >>> (7 - 0)) &&& 1) := by
  decide

/-- Claim C1 (amended): for positions `1 ≤ i < 8` the output equals
`2*((hi >> (7-i)) & 1) + ((lo >> (7-i)) & 1)`; at position 0 the
high-plane bit is lost to the `u8` truncation of `(hi & 0x80) << 1`, so
the output is `(lo >> 7) & 1`; on `[0b11110000, 0b10101010]` the output
is `[1, 2, 3, 2, 1, 0, 1, 0]`. -/
theorem C1_interleave_formula (bytes : Nat × Nat) (i : Nat) (h1 : 1 ≤ i) (h8 : i < 8) :
    (Ppu.interleave bytes).getD i 0
        = 2 * ((bytes.1 >>> (7 - i)) &&& 1) + ((bytes.2 >>> (7 - i)) &&& 1) ∧
      (Ppu.interleave bytes).getD 0 0 = (bytes.2 >>> 7) &&& 1 ∧
      Ppu.interleave (0b11110000, 0b10101010) = [1, 2, 3, 2, 1, 0, 1, 0] := by
  refine ⟨?_, ?_, by decide⟩
  · rw [interleave_getD bytes i h8, interleaveBit_eq bytes i h1 h8]
  · rw [interleave_getD bytes 0 (by omega), interleaveBit_zero]

/-- Witness for C1 (amended) at `bytes = (0b11110000, 0b10101010)`,
`i = 2`. -/
theorem C1_interleave_formula_witness :
    ((1 : Nat) ≤ 2 ∧ (2 : Nat) < 8) ∧
      ((Ppu.interleave (0b11110000, 0b10101010)).getD 2 0
          = 2 * (((0b11110000 : Nat) >>> (7 - 2)) &&& 1)
              + (((0b10101010 : Nat) >>> (7 - 2)) &&& 1) ∧
        (Ppu.interleave (0b11110000, 0b10101010)).getD 0 0
          = ((0b10101010 : Nat) >>> 7) &&& 1 ∧
        Ppu.interleave (0b11110000, 0b10101010) = [1, 2, 3, 2, 1, 0, 1, 0]) :=
  ⟨⟨by decide, by decide⟩,
    C1_interleave_formula (0b11110000, 0b10101010) 2 (by decide) (by decide)⟩

/-- Claim C7: `interleave` is a pure total function: its output always has
exactly 8 entries, every entry is at most 3, and identical inputs yield
identical outputs. -/
theorem C7_interleave_total (bytes : Nat × Nat) :
    (Ppu.interleave bytes).length = 8 ∧
      (Ppu.interleave bytes).all (fun v => decide (v ≤ 3)) = true ∧
      Ppu.interleave bytes = Ppu.interleave bytes := by
  refine ⟨by simp [Ppu.interleave], ?_, rfl⟩
  rw [List.all_eq_true]
  intro v hv
  rw [Ppu.interleave, List.mem_map] at hv
  obtain ⟨i, hi, rfl⟩ := hv
  rw [List.mem_range] at hi
  simpa using interleaveBit_le bytes i hi

/-- Claim C5: `lcdc` bit 4 set selects the unsigned window
(`0x8000 + offset`); bit 4 clear selects the signed window, whose base
`0x9000` is added to the offset modulo 2^16; in particular offset `0xFFFF`
wraps to `0x8FFF`. -/
theorem C5_tile_addressing (lcdc offset : Nat) :
    (lcdc &&& (1 <<< 4) = 1 <<< 4 → Ppu.tile_addr lcdc offset = 0x8000 + offset) ∧
      (lcdc &&& (1 <<< 4) ≠ 1 <<< 4 →
        Ppu.tile_addr lcdc offset = (0x9000 + offset) % 65536) ∧
      Ppu.tile_addr 0x00 0xFFFF = 0x8FFF := by
  refine ⟨?_, ?_, by decide⟩
  · intro hbit
    unfold Ppu.tile_addr Ppu.address_type
    rw [if_pos hbit]
  · intro hbit
    unfold Ppu.tile_addr Ppu.address_type
    rw [if_neg hbit]

/-- Witness for C5: `lcdc = 0x10` with offset `0x0205` uses the unsigned
window; `lcdc = 0` with offset `0xFFFF` wraps in the signed window. -/
theorem C5_tile_addressing_witness :
    ((0x10 : Nat) &&& (1 <<< 4) = 1 <<< 4 ∧
        Ppu.tile_addr 0x10 0x0205 = 0x8000 + 0x0205) ∧
      (¬((0x00 : Nat) &&& (1 <<< 4) = 1 <<< 4) ∧
        Ppu.tile_addr 0x00 0xFFFF = (0x9000 + 0xFFFF) % 65536) :=
  ⟨⟨by decide, (C5_tile_addressing 0x10 0x0205).1 (by decide)⟩,
    ⟨by decide, (C5_tile_addressing 0x00 0xFFFF).2.1 (by decide)⟩⟩

/-- Witness for C9 at the post-boot register state and `v = 0x1234`. -/
theorem C9_pair_accessor_frame_witness :
    (Registers.new.set_bc 0x1234).sp = Registers.new.sp ∧
      Registers.new.get_bc = Registers.new.get_bc :=
  ⟨(C9_pair_accessor_frame Registers.new 0x1234).1.2.2.2.2.2.2.1,
    (C9_pair_accessor_frame Registers.new 0x1234).2.2.2.2.1 Registers.new rfl rfl⟩

/-- Generic shape of the render loops: folding a step that appends fixed
read and write chunks per iteration accumulates the concatenation of all
chunks in iteration order. -/
theorem foldl_trace_append (f : Ppu.RenderTrace → Nat → Ppu.RenderTrace)
    (gr gw : Nat → List (Nat × Nat))
    (hf : ∀ acc k, f acc k =
      { reads := acc.reads ++ gr k, writes := acc.writes ++ gw k }) :
    ∀ (n : Nat) (acc : Ppu.RenderTrace),
      (List.range n).foldl f acc =
        { reads := acc.reads ++ (List.range n).bind gr,
          writes := acc.writes ++ (List.range n).bind gw } := by
  intro n
  induction n with
  | zero => intro acc; simp
  | succ m ih =>
    intro acc
    rw [List.range_succ, List.foldl_append, ih acc]
    simp [hf, List.append_assoc]

/-- Binding a constant singleton over a list yields a replicate of its
length. -/
theorem bind_const_singleton {α β : Type} (l : List α) (b : β) :
    (l.bind fun _ => [b]) = List.replicate l.length b := by
  induction l with
  | nil => rfl
  | cons a t ih => simp [ih, List.replicate_succ]

/-- Two-byte reads `load_block(addr, addr + 1)` return exactly the bytes
at `addr` and `addr + 1`. -/
theorem load_block_pair (mem : Mmu) (a : Nat) :
    Mmu.load_block mem a (a + 1) = [mem a, mem (a + 1)] := by
  unfold Mmu.load_block
  have h2 : a + 1 + 1 - a = 2 := by omega
  rw [h2]
  rfl

/-- One iteration of the inner `i` loop of `Ppu::render` as an append of
one read pair and eight indexed stores. -/
theorem renderCellRow_eq (lcdc : Nat) (mem : Mmu) (offset : Nat)
    (i : Nat) (ac : Ppu.RenderTrace) :
    Ppu.renderCellRow lcdc mem offset i ac =
      { reads := ac.reads ++
          [(Ppu.tile_addr lcdc offset, Ppu.tile_addr lcdc offset + 1)]
        writes := ac.writes ++ (List.range 8).map (fun j =>
          (offset + i * 8 + j,
            Ppu.palette.getD (Ppu.interleaveBit
              (mem (Ppu.tile_addr lcdc offset),
                mem (Ppu.tile_addr lcdc offset + 1)) j) 0)) } := by
  simp only [Ppu.renderCellRow, load_block_pair]
  rfl

/-- One full inner `i` loop of `Ppu::render` at a fixed cell: eight
identical `load_block` calls (the loop never advances the addresses) and
the sixty-four framebuffer stores at `offset + i * 8 + j`. -/
theorem foldl_renderCellRow (lcdc : Nat) (mem : Mmu) (offset : Nat)
    (n : Nat) (acc : Ppu.RenderTrace) :
    (List.range n).foldl (fun ac i => Ppu.renderCellRow lcdc mem offset i ac) acc =
      { reads := acc.reads ++
          List.replicate n (Ppu.tile_addr lcdc offset, Ppu.tile_addr lcdc offset + 1)
        writes := acc.writes ++ (List.range n).bind (fun i =>
          (List.range 8).map (fun j =>
            (offset + i * 8 + j,
              Ppu.palette.getD (Ppu.interleaveBit
                (mem (Ppu.tile_addr lcdc offset),
                  mem (Ppu.tile_addr lcdc offset + 1)) j) 0))) } := by
  rw [foldl_trace_append _ _ _ (fun ac i => renderCellRow_eq lcdc mem offset i ac) n acc,
    bind_const_singleton, List.length_range]

/-- Claim C6: a render call with a presentation surface visits the 32×32
grid with flat offset `x * 32 + y`, performs per cell exactly eight
`load_block` calls all at the same pair `(tile_addr, tile_addr + 1)`
(never advancing between the eight inner iterations), and stores the pixel
of inner iteration `i`, position `j` at flat index `offset + i * 8 + j`. -/
theorem C6_render_traversal (lcdc stat : Nat) (mem : Mmu) :
    Ppu.render { window := some (), lcdc := lcdc, stat := stat } mem =
      ({ window := some (), lcdc := lcdc, stat := stat },
        some
          { reads := (List.range 32).bind (fun x => (List.range 32).bind (fun y =>
              List.replicate 8 (Ppu.tile_addr lcdc (x * 32 + y),
                Ppu.tile_addr lcdc (x * 32 + y) + 1)))
            writes := (List.range 32).bind (fun x => (List.range 32).bind (fun y =>
              (List.range 8).bind (fun i => (List.range 8).map (fun j =>
                ((x * 32 + y) + i * 8 + j,
                  Ppu.palette.getD (Ppu.interleaveBit
                    (mem (Ppu.tile_addr lcdc (x * 32 + y)),
                      mem (Ppu.tile_addr lcdc (x * 32 + y) + 1)) j) 0))))) }) := by
  have h1 :
      (List.range 32).foldl (fun acc x =>
        (List.range 32).foldl (fun acc y =>
          (List.range 8).foldl (fun acc i =>
            Ppu.renderCellRow lcdc mem (x * 32 + y) i acc) acc) acc)
        { reads := [], writes := [] } =
      { reads := ([] : List (Nat × Nat)) ++ (List.range 32).bind (fun x =>
          (List.range 32).bind (fun y =>
            List.replicate 8 (Ppu.tile_addr lcdc (x * 32 + y),
              Ppu.tile_addr lcdc (x * 32 + y) + 1)))
        writes := ([] : List (Nat × Nat)) ++ (List.range 32).bind (fun x =>
          (List.range 32).bind (fun y =>
            (List.range 8).bind (fun i => (List.range 8).map (fun j =>
              ((x * 32 + y) + i * 8 + j,
                Ppu.palette.getD (Ppu.interleaveBit
                  (mem (Ppu.tile_addr lcdc (x * 32 + y)),
                    mem (Ppu.tile_addr lcdc (x * 32 + y) + 1)) j) 0))))) } :=
    foldl_trace_append _ _ _
      (fun ac x => foldl_trace_append _ _ _
        (fun ac' y => foldl_renderCellRow lcdc mem (x * 32 + y) 8 ac') 32 ac)
      32 { reads := [], writes := [] }
  simp only [Ppu.render]
  rw [h1]
  simp

/-- Claim C8: rendering on a headless pipeline (no presentation surface)
performs no `load_block` calls, produces no trace at all, and leaves the
pipeline state unchanged, for the headless constructor and for any
headless state. -/
theorem C8_headless_render (mem : Mmu) (lcdc stat : Nat) :
    Ppu.render Ppu.new_headless mem = (Ppu.new_headless, none) ∧
      Ppu.renderReads Ppu.new_headless mem = [] ∧
      Ppu.render { window := none, lcdc := lcdc, stat := stat } mem
        = ({ window := none, lcdc := lcdc, stat := stat }, none) ∧
      Ppu.renderReads { window := none, lcdc := lcdc, stat := stat } mem = [] :=
  ⟨rfl, rfl, rfl, rfl⟩

/-- Claim C10: every framebuffer index `offset + i * 8 + j` reached by
`render` is at most 1086, strictly below the 65536-entry buffer, and the
tile address stays at most `0x93FF` in both addressing modes, so
`tile_addr + 1` cannot overflow `u16`. -/
theorem C10_render_safety (lcdc x y i j : Nat)
    (hx : x < 32) (hy : y < 32) (hi : i < 8) (hj : j < 8) :
    (x * 32 + y) + i * 8 + j ≤ 1086 ∧
      (x * 32 + y) + i * 8 + j < 256 * 256 ∧
      Ppu.tile_addr lcdc (x * 32 + y) ≤ 0x93FF ∧
      Ppu.tile_addr lcdc (x * 32 + y) + 1 < 65536 ∧
      (List.replicate (256 * 256) (0 : Nat)).length = 65536 := by
  have hoff : x * 32 + y ≤ 1023 := by omega
  have hta : Ppu.tile_addr lcdc (x * 32 + y) ≤ 0x93FF := by
    unfold Ppu.tile_addr Ppu.address_type
    by_cases hbit : lcdc &&& (1 <<< 4) = 1 <<< 4
    · rw [if_pos hbit]
      show 0x8000 + (x * 32 + y) ≤ 0x93FF
      omega
    · rw [if_neg hbit]
      show (0x9000 + (x * 32 + y)) % 65536 ≤ 0x93FF
      omega
  refine ⟨by omega, by omega, hta, by omega, by rw [List.length_replicate]⟩

/-- Witness for C10 at the furthest cell, row and column
(`x = y = 31`, `i = j = 7`) with `lcdc = 0`. -/
theorem C10_render_safety_witness :
    ((31 : Nat) < 32 ∧ (7 : Nat) < 8) ∧
      ((31 * 32 + 31) + 7 * 8 + 7 ≤ 1086 ∧
        (31 * 32 + 31) + 7 * 8 + 7 < 256 * 256 ∧
        Ppu.tile_addr 0 (31 * 32 + 31) ≤ 0x93FF ∧
        Ppu.tile_addr 0 (31 * 32 + 31) + 1 < 65536 ∧
        (List.replicate (256 * 256) (0 : Nat)).length = 65536) :=
  ⟨⟨by decide, by decide⟩,
    C10_render_safety 0 31 31 7 7 (by decide) (by decide) (by decide) (by decide)⟩

end Gamboye
